import Mathlib

/-!
# Verification of the heredity inference engine

A shallow embedding of `src/L2Uncertainty/heredity/heredity.py` in Lean 4,
with theorems settling the frozen claims about it.  Python `float`
arithmetic is modelled over `ℚ` (the program only multiplies, adds and
divides fixed decimal constants), Python `dict`s over association lists,
Python `set`s over lists without duplicates (converted to `Finset` where a
statement speaks about sets), and fallible operations (Python's
`ZeroDivisionError`) over `Except`.
-/

namespace Heredity

/-- `PROBS["gene"]` from the source: the unconditional (population prior)
probability of carrying 0, 1 or 2 copies of the gene. -/
def PROBS_gene : Nat → ℚ
  | 0 => 96 / 100
  | 1 => 3 / 100
  | _ => 1 / 100

/-- `PROBS["trait"]` from the source: probability of the trait given the
number of gene copies. -/
def PROBS_trait : Nat → Bool → ℚ
  | 2, true => 65 / 100
  | 2, false => 35 / 100
  | 1, true => 56 / 100
  | 1, false => 44 / 100
  | _, true => 1 / 100
  | _, false => 99 / 100

/-- `PROBS["mutation"]` from the source. -/
def PROBS_mutation : ℚ := 1 / 100

/-- One row of the `people` dictionary built by `load_data`: the `mother`,
`father` and `trait` fields (`None` becomes `none`).  The `name` field of the
row always equals the dictionary key, so it is carried by the association
list, not duplicated here. -/
structure Person where
  mother : Option String
  father : Option String
  trait : Option Bool
deriving Repr, DecidableEq

/-- A `people` dictionary: keys (names) paired with rows.  Python `dict`
keys are unique; statements that need this carry a `Nodup` hypothesis on
the key list. -/
abbrev People := List (String × Person)

/-- `itertools.combinations(s, r)`: all length-`r` subsequences of the list
`s`.  Embedded as `List.sublistsLen r s`, which produces exactly the
length-`r` subsequences of `s`, each once per occurrence; only the order in
which they are listed differs from CPython's, and the program never relies
on that order. -/
def combinations (s : List String) (r : Nat) : List (List String) :=
  List.sublistsLen r s

/-- `powerset` from the source: `chain.from_iterable(combinations(s, r) for
r in range(len(s) + 1))`, each result converted from a tuple to a set.  A
set built from a duplicate-free list is embedded as the list itself. -/
def powerset (s : List String) : List (List String) :=
  (List.range (s.length + 1)).flatMap (fun r => combinations s r)

/-- `joint_probability` from the source.  The accumulator
`entire_joint_probability` starts at 1; every person not in
`one_gene ∪ two_genes ∪ have_trait` contributes the flat factor
`PROBS["gene"][0] * PROBS["trait"][0][False]`; every member of `two_genes`
contributes `PROBS["gene"][2] * PROBS["trait"][2][True]`; every member of
`one_gene` contributes
`((1-mutation)² + mutation²) * PROBS["trait"][1][False]`.
The `if two_genes:` / `if one_gene:` guards in the source are no-ops (a
loop over an empty set multiplies nothing) and are dropped.  Note the
function reads nothing from `people` except its key list. -/
def joint_probability (people : People)
    (one_gene two_genes have_trait : List String) : ℚ :=
  let names := people.map Prod.fst
  let p1 := names.foldl
    (fun acc child =>
      if child ∈ one_gene ∨ child ∈ two_genes ∨ child ∈ have_trait then acc
      else acc * (PROBS_gene 0 * PROBS_trait 0 false)) 1
  let p2 := two_genes.foldl
    (fun acc _ => acc * (PROBS_gene 2 * PROBS_trait 2 true)) p1
  one_gene.foldl
    (fun acc _ =>
      acc * (((1 - PROBS_mutation) * (1 - PROBS_mutation)
        + PROBS_mutation * PROBS_mutation) * PROBS_trait 1 false)) p2

/-- `update_trait` from the source. -/
def update_trait (num_of_copies : Nat) (logic_sign : Bool) (p : ℚ) : ℚ :=
  PROBS_trait num_of_copies logic_sign + p

/-- One person's entry of the `probabilities` accumulator built in `main`:
the buckets `gene[2], gene[1], gene[0]` and `trait[True], trait[False]`, in
the dictionary's insertion order. -/
structure PersonDist where
  gene2 : ℚ
  gene1 : ℚ
  gene0 : ℚ
  traitT : ℚ
  traitF : ℚ
deriving Repr, DecidableEq

/-- The effect of one call of `update` on the entry of one person.  The
source mutates `probabilities[child]` inside three loops (over `one_gene`,
then `two_genes`, then all keys not in any of the three sets); per person
the writes happen in exactly that order, and writes to different persons
are independent, so `update` factors through this per-person function.
Note the gene buckets are *assigned* `PROBS["gene"][k] + p`, and the trait
buckets `PROBS["trait"][k][b] + p`, discarding the previous bucket value. -/
def updatePerson (one_gene two_genes have_trait : List String) (p : ℚ)
    (child : String) (d : PersonDist) : PersonDist :=
  let d1 := if child ∈ one_gene then
      { d with gene1 := PROBS_gene 1 + p,
               traitT := if child ∈ have_trait then update_trait 1 true p else d.traitT,
               traitF := if child ∈ have_trait then d.traitF else update_trait 1 false p }
    else d
  let d2 := if child ∈ two_genes then
      { d1 with gene2 := PROBS_gene 2 + p,
                traitT := if child ∈ have_trait then update_trait 2 true p else d1.traitT,
                traitF := if child ∈ have_trait then d1.traitF else update_trait 2 false p }
    else d1
  if child ∈ one_gene ∨ child ∈ two_genes ∨ child ∈ have_trait then d2
  else
    { d2 with gene0 := PROBS_gene 0 + p,
              traitT := if child ∈ have_trait then update_trait 0 true p else d2.traitT,
              traitF := if child ∈ have_trait then d2.traitF else update_trait 0 false p }

/-- `update` from the source, as a map over the accumulator's entries.
(`main` only calls it with `one_gene`, `two_genes`, `have_trait` drawn from
the accumulator's own key set, so Python's `KeyError` on a foreign name
cannot occur there.) -/
def update (probabilities : List (String × PersonDist))
    (one_gene two_genes have_trait : List String) (p : ℚ) :
    List (String × PersonDist) :=
  probabilities.map
    (fun pr => (pr.1, updatePerson one_gene two_genes have_trait p pr.1 pr.2))

/-- The evidence test inlined in `main`: a candidate `have_trait` set fails
if some person has a recorded trait that disagrees with `person ∈
have_trait`.  The source iterates over `names = set(people)` and looks each
name up in `people`; with unique keys that is the same as iterating over
the entries. -/
def fails_evidence (people : People) (have_trait : List String) : Bool :=
  people.any (fun pr =>
    match pr.2.trait with
    | none => false
    | some t => t != decide (pr.1 ∈ have_trait))

/-- The fresh accumulator `main` builds: every bucket 0. -/
def initProbabilities (people : People) : List (String × PersonDist) :=
  people.map (fun pr => (pr.1, ⟨0, 0, 0, 0, 0⟩))

/-- The two inner loops of `main` for one surviving `have_trait` set:
`for one_gene in powerset(names): for two_genes in powerset(names -
one_gene): update(..., joint_probability(...))`.  The set difference
`names - one_gene` is the key list filtered by non-membership. -/
def innerLoop (people : People) (probs : List (String × PersonDist))
    (have_trait : List String) : List (String × PersonDist) :=
  let names := people.map Prod.fst
  (powerset names).foldl (fun probs one_gene =>
    (powerset (names.filter (fun x => !(x ∈ one_gene)))).foldl
      (fun probs two_genes =>
        update probs one_gene two_genes have_trait
          (joint_probability people one_gene two_genes have_trait)) probs) probs

/-- The enumeration-and-accumulation phase of `main`: loop over
`powerset(names)` as `have_trait`, skip the sets failing the evidence
test (`continue`), and run the inner loops on the rest. -/
def enumerateAndUpdate (people : People) : List (String × PersonDist) :=
  (powerset (people.map Prod.fst)).foldl
    (fun probs have_trait =>
      if fails_evidence people have_trait then probs
      else innerLoop people probs have_trait)
    (initProbabilities people)

/-- `total_gene` of the source's `normalize`: the sum of the three gene
buckets (in the dictionary's value order). -/
def total_gene (d : PersonDist) : ℚ := d.gene2 + d.gene1 + d.gene0

/-- `total_trait` of the source's `normalize`. -/
def total_trait (d : PersonDist) : ℚ := d.traitT + d.traitF

/-- One person's step of `normalize`.  The source's gene loop assigns
`probabilities[child]["gene"][idx] /= total_gene` for the `enumerate`
indices `idx = 0, 1, 2` — exactly the three existing keys, so each gene
bucket is divided once by `total_gene`; likewise the trait loop divides the
keys `0` and `1`, which in Python alias the existing keys `False` and
`True`.  A zero sum makes the first division raise `ZeroDivisionError`,
embedded as `Except.error ()`. -/
def normalizePerson (d : PersonDist) : Except Unit PersonDist :=
  let tg := total_gene d
  if tg = 0 then .error ()
  else
    let d1 : PersonDist :=
      { d with gene2 := d.gene2 / tg, gene1 := d.gene1 / tg, gene0 := d.gene0 / tg }
    let tt := total_trait d1
    if tt = 0 then .error ()
    else .ok { d1 with traitT := d1.traitT / tt, traitF := d1.traitF / tt }

/-- `normalize` from the source: process each person's entry in order; an
uncaught `ZeroDivisionError` aborts the whole call. -/
def normalize : List (String × PersonDist) → Except Unit (List (String × PersonDist))
  | [] => .ok []
  | pr :: rest =>
    match normalizePerson pr.2 with
    | .error e => .error e
    | .ok d =>
      match normalize rest with
      | .error e => .error e
      | .ok rest' => .ok ((pr.1, d) :: rest')

/-- The computational core of `main` (after `load_data`, before printing):
build the zeroed accumulator, enumerate hypotheses, accumulate, and
normalize. -/
def mainCompute (people : People) : Except Unit (List (String × PersonDist)) :=
  normalize (enumerateAndUpdate people)

/-- The `have_trait` candidate sets that the enumeration actually processes:
the members of `powerset(names)` surviving the evidence test. -/
def processedTraitSets (people : People) : List (List String) :=
  (powerset (people.map Prod.fst)).filter (fun ht => !(fails_evidence people ht))

/-- The group of set triples `(have_trait, one_gene, two_genes)` generated by
the three nested loops of `main`, before evidence filtering, with each
Python set rendered as a `Finset`. -/
def allTriples (names : List String) :
    List (Finset String × Finset String × Finset String) :=
  (powerset names).flatMap (fun ht =>
    (powerset names).flatMap (fun og =>
      (powerset (names.filter (fun x => !(x ∈ og)))).map (fun tg =>
        (ht.toFinset, og.toFinset, tg.toFinset))))

/-- The value `normalize` stores for one person when both bucket sums are
nonzero: each gene bucket divided by the gene sum, each trait bucket by the
trait sum. -/
def scalePerson (d : PersonDist) : PersonDist :=
  { gene2 := d.gene2 / total_gene d, gene1 := d.gene1 / total_gene d,
    gene0 := d.gene0 / total_gene d,
    traitT := d.traitT / total_trait d, traitF := d.traitF / total_trait d }

/-! ## Helper lemmas -/

/-- A left fold whose every step keeps the accumulator nonnegative and does
not increase it stays within `[0, a]`. -/
theorem foldl_nonneg_nonincreasing {β : Type} (f : ℚ → β → ℚ)
    (hf : ∀ a x, 0 ≤ a → 0 ≤ f a x ∧ f a x ≤ a) :
    ∀ (l : List β) (a : ℚ), 0 ≤ a →
      0 ≤ List.foldl f a l ∧ List.foldl f a l ≤ a := by
  intro l
  induction l with
  | nil => exact fun a ha => ⟨ha, le_refl a⟩
  | cons x xs ih =>
    intro a ha
    have hx := hf a x ha
    have h2 := ih (f a x) hx.1
    exact ⟨h2.1, le_trans h2.2 hx.2⟩

/-- `powerset` is a permutation of `List.sublists'`. -/
theorem powerset_perm (s : List String) :
    List.Perm (powerset s) (List.sublists' s) :=
  List.range_bind_sublistsLen_perm s

/-- The members of `powerset s` are exactly the subsequences of `s`. -/
theorem mem_powerset_iff_sublist {l s : List String} :
    l ∈ powerset s ↔ List.Sublist l s := by
  rw [(powerset_perm s).mem_iff, List.mem_sublists']

/-- `powerset` of a duplicate-free list has no duplicate entries. -/
theorem nodup_powerset {s : List String} (hs : s.Nodup) :
    (powerset s).Nodup :=
  (powerset_perm s).nodup_iff.mpr (List.nodup_sublists'.mpr hs)

/-- Filtering a duplicate-free list down to the members of one of its
subsequences recovers that subsequence. -/
theorem filter_mem_of_sublist :
    ∀ {l s : List String}, List.Sublist l s → s.Nodup →
      s.filter (fun x => decide (x ∈ l)) = l := by
  intro l s hl
  induction hl with
  | slnil => intro _; rfl
  | @cons l₁ l₂ a h ih =>
    intro hs
    have hns := List.nodup_cons.mp hs
    have hal : a ∉ l₁ := fun hmem => hns.1 (h.subset hmem)
    rw [List.filter_cons, if_neg (by simp [hal]), ih hns.2]
  | @cons₂ l₁ l₂ a h ih =>
    intro hs
    have hns := List.nodup_cons.mp hs
    have step : List.filter (fun x => decide (x ∈ a :: l₁)) l₂
        = List.filter (fun x => decide (x ∈ l₁)) l₂ := by
      apply List.filter_congr
      intro x hx
      have hxa : x ≠ a := fun he => hns.1 (he ▸ hx)
      simp [List.mem_cons, hxa]
    rw [List.filter_cons, if_pos (by simp), step, ih hns.2]

/-- Two subsequences of a duplicate-free list with the same element set are
equal. -/
theorem sublist_toFinset_inj {l₁ l₂ s : List String} (hs : s.Nodup)
    (h₁ : List.Sublist l₁ s) (h₂ : List.Sublist l₂ s)
    (he : l₁.toFinset = l₂.toFinset) :
    l₁ = l₂ := by
  rw [← filter_mem_of_sublist h₁ hs, ← filter_mem_of_sublist h₂ hs]
  apply List.filter_congr
  intro x _
  simp only [decide_eq_decide]
  rw [← List.mem_toFinset, he, List.mem_toFinset]

/-- A left fold that skips the elements failing `p` equals the fold over the
filtered list. -/
theorem foldl_skip_eq_foldl_filter {α β : Type} (q : α → Bool) (f : β → α → β) :
    ∀ (l : List α) (init : β),
      l.foldl (fun acc x => if q x then acc else f acc x) init
        = (l.filter (fun x => !(q x))).foldl f init := by
  intro l
  induction l with
  | nil => intro init; rfl
  | cons x xs ih =>
    intro init
    by_cases hx : q x = true <;>
      simp [List.foldl_cons, List.filter_cons, hx, ih]

/-- A Boolean differs from the decision of a proposition exactly when the
proposition disagrees with the Boolean being `true`. -/
theorem bne_decide_iff (t : Bool) (P : Prop) [Decidable P] :
    (t != decide P) = true ↔ ¬(P ↔ t = true) := by
  cases t <;> by_cases h : P <;> simp [h]

/-- When both bucket sums of a person are nonzero, `normalizePerson`
succeeds and divides every bucket by its distribution's sum. -/
theorem normalizePerson_ok {d : PersonDist} (hg : total_gene d ≠ 0)
    (htr : total_trait d ≠ 0) :
    normalizePerson d = .ok (scalePerson d) := by
  have hs : total_trait
      { gene2 := d.gene2 / total_gene d, gene1 := d.gene1 / total_gene d,
        gene0 := d.gene0 / total_gene d, traitT := d.traitT, traitF := d.traitF }
      = total_trait d := rfl
  simp only [normalizePerson]
  rw [if_neg hg, hs, if_neg htr]
  rfl

/-- When a bucket sum of a person is zero, `normalizePerson` raises. -/
theorem normalizePerson_error {d : PersonDist}
    (h : total_gene d = 0 ∨ total_trait d = 0) :
    normalizePerson d = .error () := by
  by_cases hg : total_gene d = 0
  · simp only [normalizePerson]
    rw [if_pos hg]
  · have htr : total_trait d = 0 := h.resolve_left hg
    have hs : total_trait
        { gene2 := d.gene2 / total_gene d, gene1 := d.gene1 / total_gene d,
          gene0 := d.gene0 / total_gene d, traitT := d.traitT, traitF := d.traitF }
        = total_trait d := rfl
    simp only [normalizePerson]
    rw [if_neg hg, hs, if_pos htr]

/-- `normalize` on entries whose sums are all nonzero succeeds, scaling
every entry. -/
theorem normalize_ok : ∀ probs : List (String × PersonDist),
    (∀ pr ∈ probs, total_gene pr.2 ≠ 0 ∧ total_trait pr.2 ≠ 0) →
    normalize probs = .ok (probs.map (fun pr => (pr.1, scalePerson pr.2)))
  | [], _ => rfl
  | q :: rest, h => by
    have hq := h q (List.mem_cons_self q rest)
    have hrest := normalize_ok rest (fun pr hpr => h pr (List.mem_cons_of_mem q hpr))
    simp only [normalize, normalizePerson_ok hq.1 hq.2, hrest, List.map_cons]

/-! ## Claims -/

/-- **C1** (code_bug evaluation).  The claim — and the source's own
docstring — require a parentless individual hypothesized to carry one copy
to contribute the genotype factor `genePrior(1) = PROBS["gene"][1]`.  The
code instead contributes the flat constant `(1-mutation)² + mutation²`
regardless of parentage: on the one-founder pedigree with `one_gene =
{"A"}` the returned joint probability is that constant times
`PROBS["trait"][1][False]`, which differs from the prior-based factor. -/
theorem C1_flat_gene_factor :
    joint_probability [("A", ⟨none, none, none⟩)] ["A"] [] []
      = ((1 - PROBS_mutation) * (1 - PROBS_mutation)
          + PROBS_mutation * PROBS_mutation) * PROBS_trait 1 false ∧
    ((1 - PROBS_mutation) * (1 - PROBS_mutation)
          + PROBS_mutation * PROBS_mutation) * PROBS_trait 1 false
      ≠ PROBS_gene 1 * PROBS_trait 1 false := by
  constructor
  · norm_num [joint_probability, List.foldl_cons, List.foldl_nil]
  · norm_num [PROBS_gene, PROBS_trait, PROBS_mutation]

/-- **C2** (code_bug evaluation).  The claim — and the source's own
docstring — require `update` to *add* `p` to the bucket of each person's
hypothesized assignment.  The code instead overwrites each touched bucket
with `PROBS[...] + p`, and skips entirely any person who is only in
`have_trait`: starting from a gene-1 bucket holding 5 and adding `p = 1`
leaves `0.03 + 1`, not `5 + 1`; and a person in `have_trait` alone gets no
bucket changed at all. -/
theorem C2_overwrite_and_skip :
    update [("A", ⟨0, 5, 0, 0, 0⟩)] ["A"] [] [] 1
      = [("A", ⟨0, 103 / 100, 0, 0, 36 / 25⟩)] ∧
    (103 / 100 : ℚ) ≠ 5 + 1 ∧
    update [("B", ⟨0, 0, 0, 0, 0⟩)] [] [] ["B"] 1
      = [("B", ⟨0, 0, 0, 0, 0⟩)] := by
  refine ⟨?_, by norm_num, ?_⟩ <;>
    norm_num [update, updatePerson, update_trait, PROBS_gene, PROBS_trait]

/-- **C3** (code_bug evaluation).  On a pedigree with a single founder and
no trait observations the claim requires the normalized gene distribution
to equal the population prior `{0: 0.96, 1: 0.03, 2: 0.01}` exactly; the
pipeline instead produces `{0: 477600/597047, 1: 115322/597047,
2: 375/54277}`, none of which matches its prior. -/
theorem C3_founder_not_prior :
    mainCompute [("A", ⟨none, none, none⟩)]
      = .ok [("A", ⟨375 / 54277, 115322 / 597047, 477600 / 597047,
                    123911 / 232822, 108911 / 232822⟩)] ∧
    (477600 / 597047 : ℚ) ≠ PROBS_gene 0 ∧
    (115322 / 597047 : ℚ) ≠ PROBS_gene 1 ∧
    (375 / 54277 : ℚ) ≠ PROBS_gene 2 := by
  refine ⟨?_, ?_, ?_, ?_⟩
  · norm_num [mainCompute, enumerateAndUpdate, innerLoop, initProbabilities,
      update, updatePerson, update_trait, fails_evidence, joint_probability,
      powerset, combinations, normalize, normalizePerson, total_gene, total_trait,
      PROBS_gene, PROBS_trait, PROBS_mutation,
      List.range_succ, List.sublistsLen_succ_cons]
  · norm_num [PROBS_gene]
  · norm_num [PROBS_gene]
  · norm_num [PROBS_gene]

/-- **C7** (confirmed).  `joint_probability` reads nothing from the
`people` mapping except its key list: two mappings with the same keys give
equal results for every choice of the three sets, so no individual's
`mother`, `father` or `trait` field can influence the value. -/
theorem C7_joint_ignores_person_fields (people₁ people₂ : People)
    (one_gene two_genes have_trait : List String)
    (h : people₁.map Prod.fst = people₂.map Prod.fst) :
    joint_probability people₁ one_gene two_genes have_trait
      = joint_probability people₂ one_gene two_genes have_trait := by
  unfold joint_probability
  rw [h]

/-- Witness for C7: changing the founder's parents and observed trait does
not change the joint probability. -/
theorem C7_witness :
    joint_probability [("A", ⟨some "M", some "F", some true⟩)] ["A"] [] []
      = joint_probability [("A", ⟨none, none, none⟩)] ["A"] [] [] :=
  C7_joint_ignores_person_fields _ _ _ _ _ rfl

/-- **C8** (confirmed).  For every pedigree and every hypothesis triple the
joint probability lies in `[0, 1]`; the function is total (it looks up
nothing that could fail), so no error can be raised. -/
theorem C8_joint_in_unit_interval (people : People)
    (one_gene two_genes have_trait : List String) :
    0 ≤ joint_probability people one_gene two_genes have_trait ∧
    joint_probability people one_gene two_genes have_trait ≤ 1 := by
  have step₁ : ∀ (a : ℚ) (x : String), 0 ≤ a →
      0 ≤ (if x ∈ one_gene ∨ x ∈ two_genes ∨ x ∈ have_trait then a
           else a * (PROBS_gene 0 * PROBS_trait 0 false)) ∧
      (if x ∈ one_gene ∨ x ∈ two_genes ∨ x ∈ have_trait then a
           else a * (PROBS_gene 0 * PROBS_trait 0 false)) ≤ a := by
    intro a x ha
    by_cases hx : x ∈ one_gene ∨ x ∈ two_genes ∨ x ∈ have_trait
    · simp only [hx, if_true]; exact ⟨ha, le_refl a⟩
    · simp only [hx, if_false]
      constructor
      · exact mul_nonneg ha (by norm_num [PROBS_gene, PROBS_trait])
      · exact mul_le_of_le_one_right ha (by norm_num [PROBS_gene, PROBS_trait])
  have step₂ : ∀ (a : ℚ) (x : String), 0 ≤ a →
      0 ≤ a * (PROBS_gene 2 * PROBS_trait 2 true) ∧
      a * (PROBS_gene 2 * PROBS_trait 2 true) ≤ a := by
    intro a _ ha
    exact ⟨mul_nonneg ha (by norm_num [PROBS_gene, PROBS_trait]),
      mul_le_of_le_one_right ha (by norm_num [PROBS_gene, PROBS_trait])⟩
  have step₃ : ∀ (a : ℚ) (x : String), 0 ≤ a →
      0 ≤ a * (((1 - PROBS_mutation) * (1 - PROBS_mutation)
          + PROBS_mutation * PROBS_mutation) * PROBS_trait 1 false) ∧
      a * (((1 - PROBS_mutation) * (1 - PROBS_mutation)
          + PROBS_mutation * PROBS_mutation) * PROBS_trait 1 false) ≤ a := by
    intro a _ ha
    exact ⟨mul_nonneg ha (by norm_num [PROBS_mutation, PROBS_trait]),
      mul_le_of_le_one_right ha (by norm_num [PROBS_mutation, PROBS_trait])⟩
  have h₁ := foldl_nonneg_nonincreasing _ step₁
    ((people.map Prod.fst)) 1 (by norm_num)
  have h₂ := foldl_nonneg_nonincreasing _ step₂ two_genes _ h₁.1
  have h₃ := foldl_nonneg_nonincreasing _ step₃ one_gene _ h₂.1
  exact ⟨h₃.1, le_trans h₃.2 (le_trans h₂.2 h₁.2)⟩

/-- **C10** (counterexample).  The claim says a pedigree with a dangling
parent reference makes the program fail fast with a structural-validation
error before enumeration; instead the full pipeline runs to completion and
returns the normalized distributions (parent fields are never consulted). -/
theorem C10_counterexample :
    mainCompute [("A", ⟨some "ghost", some "ghost2", none⟩)]
      = .ok [("A", ⟨375 / 54277, 115322 / 597047, 477600 / 597047,
                    123911 / 232822, 108911 / 232822⟩)] := by
  norm_num [mainCompute, enumerateAndUpdate, innerLoop, initProbabilities,
    update, updatePerson, update_trait, fails_evidence, joint_probability,
    powerset, combinations, normalize, normalizePerson, total_gene, total_trait,
    PROBS_gene, PROBS_trait, PROBS_mutation,
    List.range_succ, List.sublistsLen_succ_cons]

/-- **C10** (amended).  The program performs no structural validation at
all: a pedigree whose only individual names two nonexistent parents is
processed without any error, to exactly the same output as the same
pedigree with the dangling references removed. -/
theorem C10_no_validation :
    mainCompute [("A", ⟨some "bogus", some "missing", none⟩)]
      = mainCompute [("A", ⟨none, none, none⟩)] ∧
    ∃ out, mainCompute [("A", ⟨some "bogus", some "missing", none⟩)] = .ok out := by
  have h : ∀ p : Person, mainCompute [("A", p)]
      = .ok [("A", ⟨375 / 54277, 115322 / 597047, 477600 / 597047,
                    123911 / 232822, 108911 / 232822⟩)] ∨
      p.trait ≠ none := by
    intro p
    rcases hp : p.trait with _ | t
    · left
      norm_num [mainCompute, enumerateAndUpdate, innerLoop, initProbabilities,
        update, updatePerson, update_trait, fails_evidence, joint_probability,
        powerset, combinations, normalize, normalizePerson, total_gene, total_trait,
        PROBS_gene, PROBS_trait, PROBS_mutation, hp,
        List.range_succ, List.sublistsLen_succ_cons]
    · right; simp [hp]
  have h₁ := (h ⟨some "bogus", some "missing", none⟩).resolve_right (by simp)
  have h₂ := (h ⟨none, none, none⟩).resolve_right (by simp)
  exact ⟨h₁.trans h₂.symm, _, h₁⟩

/-- **C6** (confirmed).  When every individual's gene-bucket sum and
trait-bucket sum are nonzero, `normalize` succeeds, replaces each of the
three gene values by its old value divided by the gene sum and each of the
two trait values by its old value divided by the trait sum (that is exactly
`scalePerson`), and each resulting distribution sums to exactly 1. -/
theorem C6_normalize_divides (probs : List (String × PersonDist))
    (h : ∀ pr ∈ probs, total_gene pr.2 ≠ 0 ∧ total_trait pr.2 ≠ 0) :
    normalize probs = .ok (probs.map (fun pr => (pr.1, scalePerson pr.2))) ∧
    ∀ pr ∈ probs, total_gene (scalePerson pr.2) = 1 ∧
      total_trait (scalePerson pr.2) = 1 := by
  refine ⟨normalize_ok probs h, ?_⟩
  intro pr hpr
  obtain ⟨hg, htr⟩ := h pr hpr
  constructor
  · show pr.2.gene2 / total_gene pr.2 + pr.2.gene1 / total_gene pr.2
        + pr.2.gene0 / total_gene pr.2 = 1
    rw [div_add_div_same, div_add_div_same]
    exact div_self hg
  · show pr.2.traitT / total_trait pr.2 + pr.2.traitF / total_trait pr.2 = 1
    rw [div_add_div_same]
    exact div_self htr

/-- Witness for C6 at a one-person accumulator with nonzero sums. -/
theorem C6_witness :
    normalize [("A", (⟨0, 0, 1, 0, 1⟩ : PersonDist))]
      = .ok ([("A", (⟨0, 0, 1, 0, 1⟩ : PersonDist))].map
          (fun pr => (pr.1, scalePerson pr.2))) ∧
    ∀ pr ∈ [("A", (⟨0, 0, 1, 0, 1⟩ : PersonDist))],
      total_gene (scalePerson pr.2) = 1 ∧ total_trait (scalePerson pr.2) = 1 :=
  C6_normalize_divides _ (by
    intro pr hpr
    rw [List.mem_singleton] at hpr
    subst hpr
    exact ⟨by simp [total_gene], by simp [total_trait]⟩)

/-- **C9** (confirmed).  If some individual's accumulated gene buckets (or
trait buckets) sum to exactly zero when normalization runs, `normalize`
fails with the surfaced error (Python's uncaught `ZeroDivisionError`)
instead of returning a value: no NaN or other result is produced. -/
theorem C9_zero_sum_errors (probs : List (String × PersonDist))
    (pr : String × PersonDist) (hmem : pr ∈ probs)
    (h : total_gene pr.2 = 0 ∨ total_trait pr.2 = 0) :
    normalize probs = .error () := by
  induction probs with
  | nil => cases hmem
  | cons q rest ih =>
    rcases List.mem_cons.mp hmem with heq | hmem'
    · rw [heq] at h
      simp only [normalize, normalizePerson_error h]
    · cases hq : normalizePerson q.2 with
      | error e =>
        cases e
        simp only [normalize, hq]
      | ok d =>
        simp only [normalize, hq, ih hmem']

/-- Witness for C9 at the all-zero accumulator left by filtering out every
hypothesis. -/
theorem C9_witness :
    normalize [("A", (⟨0, 0, 0, 0, 0⟩ : PersonDist))] = .error () :=
  C9_zero_sum_errors _ ("A", (⟨0, 0, 0, 0, 0⟩ : PersonDist))
    (by simp) (Or.inl (by simp [total_gene]))

/-- **C4** (confirmed).  A `have_trait` candidate fails the evidence test
exactly when some individual's recorded trait observation disagrees with
its membership in the candidate set (individuals with unknown trait impose
nothing); the enumeration is the fold over precisely the surviving
candidates, so every hypothesis reaching `update` — and hence every
contribution to any accumulator bucket — assigns each observed individual
its observed trait value. -/
theorem C4_evidence_filter (people : People) :
    (∀ ht : List String, fails_evidence people ht = true ↔
      ∃ pr ∈ people, ∃ t, pr.2.trait = some t ∧ ¬(pr.1 ∈ ht ↔ t = true)) ∧
    (enumerateAndUpdate people
      = (processedTraitSets people).foldl (innerLoop people)
          (initProbabilities people)) ∧
    (∀ ht ∈ processedTraitSets people, ∀ pr ∈ people, ∀ t : Bool,
      pr.2.trait = some t → (pr.1 ∈ ht ↔ t = true)) := by
  have hA : ∀ ht : List String, fails_evidence people ht = true ↔
      ∃ pr ∈ people, ∃ t, pr.2.trait = some t ∧ ¬(pr.1 ∈ ht ↔ t = true) := by
    intro ht
    rw [fails_evidence, List.any_eq_true]
    refine exists_congr fun pr => and_congr_right fun _ => ?_
    cases htr : pr.2.trait with
    | none => simp
    | some t =>
      simp only [Option.some.injEq]
      constructor
      · intro hb
        exact ⟨t, rfl, (bne_decide_iff t _).mp hb⟩
      · rintro ⟨t', rfl, hne⟩
        exact (bne_decide_iff t _).mpr hne
  refine ⟨hA, ?_, ?_⟩
  · rw [enumerateAndUpdate, processedTraitSets]
    exact foldl_skip_eq_foldl_filter _ _ _ _
  · intro ht hht pr hpr t htrait
    rw [processedTraitSets, List.mem_filter] at hht
    have hfail : ¬ fails_evidence people ht = true := by
      simpa using hht.2
    by_contra hcon
    exact hfail ((hA ht).mpr ⟨pr, hpr, t, htrait, hcon⟩)

/-- Witness for C4: with the observation `trait("A") = true`, the processed
candidate `["A"]` indeed assigns `"A"` the trait. -/
theorem C4_witness :
    ("A" ∈ (["A"] : List String) ↔ true = true) :=
  (C4_evidence_filter [("A", ⟨none, none, some true⟩)]).2.2 ["A"]
    (by decide) ("A", ⟨none, none, some true⟩) (by decide) true rfl

/-- Every subset of the element set of `s` is realized by a member of
`powerset s`. -/
theorem exists_mem_powerset_toFinset {s : List String} {t : Finset String}
    (hsub : t ⊆ s.toFinset) :
    ∃ l ∈ powerset s, l.toFinset = t := by
  refine ⟨s.filter (fun x => decide (x ∈ t)),
    mem_powerset_iff_sublist.mpr (List.filter_sublist s), ?_⟩
  ext x
  simp only [List.mem_toFinset, List.mem_filter, decide_eq_true_eq]
  exact ⟨fun hx => hx.2, fun hx => ⟨List.mem_toFinset.mp (hsub hx), hx⟩⟩

/-- The triples generated by the loop nest contain no duplicate, read as
set triples, when the name list has no duplicate. -/
theorem allTriples_nodup {names : List String} (h : names.Nodup) :
    (allTriples names).Nodup := by
  rw [allTriples, List.nodup_flatMap]
  refine ⟨?_, ?_⟩
  · intro ht hht
    rw [List.nodup_flatMap]
    refine ⟨?_, ?_⟩
    · intro og hog
      refine List.Nodup.map_on ?_ (nodup_powerset (h.filter _))
      intro tg₁ h₁ tg₂ h₂ heq
      have h3 : tg₁.toFinset = tg₂.toFinset := congrArg (fun q => q.2.2) heq
      exact sublist_toFinset_inj (h.filter _) (mem_powerset_iff_sublist.mp h₁)
        (mem_powerset_iff_sublist.mp h₂) h3
    · refine (nodup_powerset h).imp_of_mem ?_
      intro og₁ og₂ h₁ h₂ hne
      intro x hx₁ hx₂
      obtain ⟨tg₁, _, rfl⟩ := List.mem_map.mp hx₁
      obtain ⟨tg₂, _, heq⟩ := List.mem_map.mp hx₂
      have h2 : og₂.toFinset = og₁.toFinset := congrArg (fun q => q.2.1) heq
      exact hne (sublist_toFinset_inj h (mem_powerset_iff_sublist.mp h₁)
        (mem_powerset_iff_sublist.mp h₂) h2.symm)
  · refine (nodup_powerset h).imp_of_mem ?_
    intro ht₁ ht₂ h₁ h₂ hne
    intro x hx₁ hx₂
    obtain ⟨og₁, _, hmem₁⟩ := List.mem_flatMap.mp hx₁
    obtain ⟨og₂, _, hmem₂⟩ := List.mem_flatMap.mp hx₂
    obtain ⟨tg₁, _, rfl⟩ := List.mem_map.mp hmem₁
    obtain ⟨tg₂, _, heq⟩ := List.mem_map.mp hmem₂
    have h2 : ht₂.toFinset = ht₁.toFinset := congrArg (fun q => q.1) heq
    exact hne (sublist_toFinset_inj h (mem_powerset_iff_sublist.mp h₁)
      (mem_powerset_iff_sublist.mp h₂) h2.symm)

/-- A set triple is generated by the loop nest exactly when each component
is a subset of the names and the two gene sets are disjoint. -/
theorem mem_allTriples {names : List String}
    (t : Finset String × Finset String × Finset String) :
    t ∈ allTriples names ↔
      t.1 ⊆ names.toFinset ∧ t.2.1 ⊆ names.toFinset ∧
      t.2.2 ⊆ names.toFinset ∧ Disjoint t.2.1 t.2.2 := by
  obtain ⟨t1, t2, t3⟩ := t
  simp only [allTriples, List.mem_flatMap, List.mem_map]
  constructor
  · rintro ⟨ht, hht, og, hog, tg, htg, heq⟩
    injection heq with e1 e23
    injection e23 with e2 e3
    subst e1; subst e2; subst e3
    refine ⟨?_, ?_, ?_, ?_⟩
    · intro x hx
      exact List.mem_toFinset.mpr
        ((mem_powerset_iff_sublist.mp hht).subset (List.mem_toFinset.mp hx))
    · intro x hx
      exact List.mem_toFinset.mpr
        ((mem_powerset_iff_sublist.mp hog).subset (List.mem_toFinset.mp hx))
    · intro x hx
      have hxf := (mem_powerset_iff_sublist.mp htg).subset (List.mem_toFinset.mp hx)
      exact List.mem_toFinset.mpr (List.mem_filter.mp hxf).1
    · rw [Finset.disjoint_left]
      intro x hxog hxtg
      have hxf := (mem_powerset_iff_sublist.mp htg).subset (List.mem_toFinset.mp hxtg)
      have hcond := (List.mem_filter.mp hxf).2
      simp only [Bool.not_eq_true', decide_eq_false_iff_not] at hcond
      exact hcond (List.mem_toFinset.mp hxog)
  · rintro ⟨h1, h2, h3, h4⟩
    refine ⟨names.filter (fun x => decide (x ∈ t1)),
      mem_powerset_iff_sublist.mpr (List.filter_sublist names),
      names.filter (fun x => decide (x ∈ t2)),
      mem_powerset_iff_sublist.mpr (List.filter_sublist names),
      names.filter (fun x => decide (x ∈ t3)), ?_, ?_⟩
    · rw [mem_powerset_iff_sublist]
      apply List.monotone_filter_right
      intro x hx3
      have hx3' : x ∈ t3 := of_decide_eq_true hx3
      have hx2 : x ∉ t2 := Finset.disjoint_right.mp h4 hx3'
      have hxog : x ∉ names.filter (fun y => decide (y ∈ t2)) := by
        simp [List.mem_filter, hx2]
      simp [hxog]
    · have key : ∀ u : Finset String, u ⊆ names.toFinset →
          (names.filter (fun x => decide (x ∈ u))).toFinset = u := by
        intro u hu
        ext x
        simp only [List.mem_toFinset, List.mem_filter, decide_eq_true_eq]
        exact ⟨fun hx => hx.2, fun hx => ⟨List.mem_toFinset.mp (hu hx), hx⟩⟩
      rw [key t1 h1, key t2 h2, key t3 h3]

/-- **C5** (confirmed).  Over a duplicate-free name list the enumeration is
exhaustive and repetition-free: `powerset` lists all `2^n` subsets; the set
triples `(have_trait, one_gene, two_genes)` the loop nest runs through have
no duplicate; and a triple is generated exactly when each component is a
subset of the names and the one-copy and two-copy sets are disjoint. -/
theorem C5_enumeration_exhaustive (names : List String) (h : names.Nodup) :
    (powerset names).length = 2 ^ names.length ∧
    (allTriples names).Nodup ∧
    ∀ t : Finset String × Finset String × Finset String,
      t ∈ allTriples names ↔
        t.1 ⊆ names.toFinset ∧ t.2.1 ⊆ names.toFinset ∧
        t.2.2 ⊆ names.toFinset ∧ Disjoint t.2.1 t.2.2 :=
  ⟨by rw [(powerset_perm names).length_eq, List.length_sublists'],
    allTriples_nodup h, fun t => mem_allTriples t⟩

/-- Witness for C5 on the two-person name list. -/
theorem C5_witness :
    (({"A"}, {"A"}, {"B"}) :
        Finset String × Finset String × Finset String) ∈ allTriples ["A", "B"] :=
  ((C5_enumeration_exhaustive ["A", "B"] (by decide)).2.2 _).mpr
    (by refine ⟨?_, ?_, ?_, ?_⟩ <;> simp)

end Heredity
